import Mathlib

/-!
Verification of the sliding-window linear-domain finder
(`scripts/where_linear.py`, class `LinearDomainFinder`).

The embedding models the numeric series as lists of rationals.  `np.polyfit`
with `deg=1` is modelled by the ordinary-least-squares slope formula
(the normal-equation solution, which is what `polyfit` computes whenever the
window is non-degenerate).  Python list/array slicing `l[a:b]` is modelled by
`pySlice`, which clips to the list bounds exactly as Python does.  Division is
the total division of `ℚ` (the zero-denominator case is the subject of the
zero-anchor analysis below).
-/

/-- Embedding of the `Domain` helper class of `where_linear.py`:
`id` is the discovery-order identifier, `shift` the first window offset of the
domain, `size` the number of consecutive offsets, `slope` the anchor slope. -/
structure Domain where
  id : Nat
  shift : Nat
  size : Nat
  slope : ℚ
deriving DecidableEq, Repr

/-- Embedding of `Domain.__lt__`:
`(self.slope < other.slope) if (self.size == other.size) else (self.size < other.size)`. -/
def domLt (a b : Domain) : Prop :=
  if a.size = b.size then a.slope < b.slope else a.size < b.size

instance (a b : Domain) : Decidable (domLt a b) := by
  unfold domLt
  split <;> infer_instance

/-- Python list slicing `l[a:b]` (nonnegative bounds): out-of-range bounds are
clipped to the list length, never an error. -/
def pySlice (l : List ℚ) (a b : Nat) : List ℚ := (l.take b).drop a

/-- The sub-series at the explicit index range `[a, b)`: the spec-side
description of a slice, used to compare against `pySlice` (missing indices
read as the `getD` default, which never happens for in-range `b ≤ l.length`). -/
def indexRange (l : List ℚ) (a b : Nat) : List ℚ :=
  (List.range (b - a)).map fun j => l.getD (a + j) 0

/-- Slope of the degree-1 ordinary-least-squares fit of `np.polyfit(x, y, deg=1)`
over paired samples: `(n·Σxy − Σx·Σy) / (n·Σx² − (Σx)²)`. -/
def leastSquaresSlope (xs ys : List ℚ) : ℚ :=
  let n : ℚ := xs.length
  let sx := xs.sum
  let sy := ys.sum
  let sxy := (List.zipWith (fun u v => u * v) xs ys).sum
  let sxx := (xs.map fun u => u * u).sum
  (n * sxy - sx * sy) / (n * sxx - sx * sx)

/-- Embedding of the regression loop of `slidingWindowFind`: one slope per
window offset `i < N = n − W + 1`, fitted over the slices `x[i:i+W]`, `y[i:i+W]`. -/
def regressSlopes (x y : List ℚ) (W : Nat) : List ℚ :=
  (List.range (x.length - W + 1)).map fun i =>
    leastSquaresSlope (pySlice x i (i + W)) (pySlice y i (i + W))

/-- Embedding of the fractional deviation `abs(slopes[i] - currSlope) / currSlope`
computed by the segmentation loop (note: the denominator is the signed anchor
slope itself, with no zero guard). -/
def fdev (s a : ℚ) : ℚ := |s - a| / a

/-- The loop-carried mutable state of the segmentation scan of
`slidingWindowFind`: current anchor slope, current domain id, the list of
finalized domains, and the in-progress domain. -/
structure SegState where
  currSlope : ℚ
  currDomainID : Nat
  domains : List Domain
  currDomain : Domain
deriving DecidableEq, Repr

/-- One iteration of the segmentation loop body at offset `i` with incoming
slope `s`: extend the current domain when the fractional deviation is below
`FDEV_CUT`, otherwise finalize it and start a fresh domain anchored at `s`. -/
def segStep (cut : ℚ) (i : Nat) (st : SegState) (s : ℚ) : SegState :=
  if fdev s st.currSlope < cut then
    { st with currDomain := { st.currDomain with size := st.currDomain.size + 1 } }
  else
    { currSlope := s
      currDomainID := st.currDomainID + 1
      domains := st.domains ++ [st.currDomain]
      currDomain := ⟨st.currDomainID + 1, i, 1, s⟩ }

/-- The segmentation loop `for i in range(1, N)` as a fold over the remaining
slopes, carrying the offset counter `i`. -/
def segLoop (cut : ℚ) : SegState → Nat → List ℚ → SegState
  | st, _, [] => st
  | st, i, s :: rest => segLoop cut (segStep cut i st s) (i + 1) rest

/-- Initialization of the segmentation scan: anchor slope `slopes[0]`,
current domain `{id: 0, shift: 0, size: 1}`. -/
def initState (s0 : ℚ) : SegState := ⟨s0, 0, [], ⟨0, 0, 1, s0⟩⟩

/-- The full segmentation stage of `slidingWindowFind`: run the loop from
offset 1 and append the final in-progress domain (`domains.append(currDomain)`).
An empty slope array is mapped to the empty list (in Python `slopes[0]` would
raise; every claim below assumes `N ≥ 1`). -/
def findDomains (slopes : List ℚ) (cut : ℚ) : List Domain :=
  match slopes with
  | [] => []
  | s0 :: rest =>
      let st := segLoop cut (initState s0) 1 rest
      st.domains ++ [st.currDomain]

/-- Number of domains discovered by the segmentation stage. -/
def numDomains (slopes : List ℚ) (cut : ℚ) : Nat := (findDomains slopes cut).length

/-- Size of the first discovered domain (0 only for an empty slope array). -/
def firstDomainSize (slopes : List ℚ) (cut : ℚ) : Nat :=
  ((findDomains slopes cut).headD ⟨0, 0, 0, 0⟩).size

/-- Instrumented replay of `segLoop` (it steps with the very same `segStep`)
that reports whether some executed deviation `|slopes[i] − currSlope| / currSlope`
has a zero denominator; it stops at the first such division. -/
def segLoopDividesByZero (cut : ℚ) : SegState → Nat → List ℚ → Bool
  | _, _, [] => false
  | st, i, s :: rest =>
      if st.currSlope = 0 then true
      else segLoopDividesByZero cut (segStep cut i st s) (i + 1) rest

/-- Whether the segmentation stage, run on `slopes` with threshold `cut`,
executes a division whose denominator (the current anchor slope) is zero. -/
def segmentationDividesByZero (slopes : List ℚ) (cut : ℚ) : Bool :=
  match slopes with
  | [] => false
  | s0 :: rest => segLoopDividesByZero cut (initState s0) 1 rest

/-- Embedding of the selection loop of `slidingWindowFind`:
`LLD = domains[0]; for i in range(len(domains)): if LLD < domains[i]: LLD = domains[i]`.
`none` models the `IndexError` on an empty list (unreachable when `N ≥ 1`). -/
def findLLD : List Domain → Option Domain
  | [] => none
  | d0 :: rest => some (List.foldl (fun lld d => if domLt lld d then d else lld) d0 (d0 :: rest))

/-- Embedding of `LinearDomainFinder.slidingWindowFind` (its numeric result:
the selected domain and the refined slope over `x[LLD_START:LLD_END]` with
`LLD_END = shift + size + WIN_SIZE`).  The source performs no input validation;
`none` models the runtime exceptions Python raises on the way (an empty window
slice, a slope array of length `< 1` when `W > n`, or size-mismatched slices
when the two series differ in length). -/
def slidingWindowFind (x y : List ℚ) (W : Nat) (cut : ℚ) : Option (Domain × ℚ) :=
  if W = 0 ∨ x.length < W ∨ y.length ≠ x.length then none
  else
    let slopes := regressSlopes x y W
    match findLLD (findDomains slopes cut) with
    | none => none
    | some d =>
        some (d, leastSquaresSlope (pySlice x d.shift (d.shift + d.size + W))
                                   (pySlice y d.shift (d.shift + d.size + W)))

/-- Sum of the sizes of a list of domains. -/
def sumSizes (l : List Domain) : Nat := (l.map Domain.size).sum

/-- `chainFrom a l` states that the domains in `l` tile the offsets starting at
`a` contiguously: each has size at least 1 and starts exactly where its
predecessor ends. -/
def chainFrom : Nat → List Domain → Prop
  | _, [] => True
  | a, d :: rest => d.shift = a ∧ 1 ≤ d.size ∧ chainFrom (a + d.size) rest

lemma head?_append_singleton {l : List Domain} {x : Domain} (h : l ≠ []) :
    (l ++ [x]).head? = l.head? := by
  cases l with
  | nil => exact absurd rfl h
  | cons a t => rfl

lemma headD_of_head? {l : List Domain} {v d : Domain} (h : l.head? = some v) :
    l.headD d = v := by
  cases l with
  | nil => simp at h
  | cons a t =>
      simp only [List.head?_cons, Option.some.injEq] at h
      simp [h]

lemma segLoop_head?_of_domains_ne_nil (cut : ℚ) :
    ∀ (rest : List ℚ) (a : ℚ) (n : Nat) (ds : List Domain) (c : Domain) (i : Nat), ds ≠ [] →
      ((segLoop cut ⟨a, n, ds, c⟩ i rest).domains ++
          [(segLoop cut ⟨a, n, ds, c⟩ i rest).currDomain]).head? = ds.head? := by
  intro rest
  induction rest with
  | nil =>
      intro a n ds c i h
      simp only [segLoop]
      exact head?_append_singleton h
  | cons s rest ih =>
      intro a n ds c i h
      simp only [segLoop]
      by_cases hdev : fdev s a < cut
      · rw [show segStep cut i ⟨a, n, ds, c⟩ s = ⟨a, n, ds, ⟨c.id, c.shift, c.size + 1, c.slope⟩⟩ by
            unfold segStep; rw [if_pos hdev]]
        exact ih a n ds _ (i + 1) h
      · rw [show segStep cut i ⟨a, n, ds, c⟩ s = ⟨s, n + 1, ds ++ [c], ⟨n + 1, i, 1, s⟩⟩ by
            unfold segStep; rw [if_neg hdev]]
        rw [ih s (n + 1) (ds ++ [c]) _ (i + 1) (by simp)]
        exact head?_append_singleton h

lemma segLoop_first_domain (cut : ℚ) :
    ∀ (rest : List ℚ) (a : ℚ) (n : Nat) (c : Domain) (i : Nat),
      ((segLoop cut ⟨a, n, [], c⟩ i rest).domains ++
          [(segLoop cut ⟨a, n, [], c⟩ i rest).currDomain]).head? =
        some ⟨c.id, c.shift,
          c.size + (rest.takeWhile fun s => decide (fdev s a < cut)).length, c.slope⟩ := by
  intro rest
  induction rest with
  | nil =>
      intro a n c i
      simp only [segLoop]
      simp
  | cons s rest ih =>
      intro a n c i
      simp only [segLoop]
      by_cases hdev : fdev s a < cut
      · rw [show segStep cut i ⟨a, n, [], c⟩ s = ⟨a, n, [], ⟨c.id, c.shift, c.size + 1, c.slope⟩⟩ by
            unfold segStep; rw [if_pos hdev]]
        rw [ih a n ⟨c.id, c.shift, c.size + 1, c.slope⟩ (i + 1)]
        simp only [List.takeWhile_cons, decide_eq_true_eq, hdev, if_true, List.length_cons,
          Option.some.injEq, Domain.mk.injEq, true_and, and_true]
        all_goals omega
      · rw [show segStep cut i ⟨a, n, [], c⟩ s = ⟨s, n + 1, [] ++ [c], ⟨n + 1, i, 1, s⟩⟩ by
            unfold segStep; rw [if_neg hdev]]
        rw [segLoop_head?_of_domains_ne_nil cut rest s (n + 1) ([] ++ [c]) ⟨n + 1, i, 1, s⟩
          (i + 1) (by simp)]
        simp [List.takeWhile_cons, hdev]

lemma firstDomainSize_eq (s0 : ℚ) (rest : List ℚ) (cut : ℚ) :
    firstDomainSize (s0 :: rest) cut =
      1 + (rest.takeWhile fun s => decide (fdev s s0 < cut)).length := by
  unfold firstDomainSize findDomains
  simp only [initState]
  rw [headD_of_head? (segLoop_first_domain cut rest s0 0 ⟨0, 0, 1, s0⟩ 1)]

lemma takeWhile_length_mono {p q : ℚ → Bool} (h : ∀ a, p a = true → q a = true) :
    ∀ l : List ℚ, (l.takeWhile p).length ≤ (l.takeWhile q).length := by
  intro l
  induction l with
  | nil => simp
  | cons a l ih =>
      simp only [List.takeWhile_cons]
      cases hp : p a with
      | false => simp
      | true =>
          rw [h a hp]
          simp only [if_true, List.length_cons]
          omega

lemma segLoop_neg_anchor_merges_all (cut : ℚ) (hc : 0 < cut) :
    ∀ (rest : List ℚ) (a : ℚ) (n : Nat) (ds : List Domain) (c : Domain) (i : Nat), a < 0 →
      segLoop cut ⟨a, n, ds, c⟩ i rest =
        ⟨a, n, ds, ⟨c.id, c.shift, c.size + rest.length, c.slope⟩⟩ := by
  intro rest
  induction rest with
  | nil =>
      intro a n ds c i hneg
      simp only [segLoop]
      simp
  | cons s rest ih =>
      intro a n ds c i hneg
      have hdev : fdev s a < cut := by
        have h1 : fdev s a ≤ 0 :=
          div_nonpos_iff.mpr (Or.inl ⟨abs_nonneg _, le_of_lt hneg⟩)
        exact lt_of_le_of_lt h1 hc
      simp only [segLoop]
      rw [show segStep cut i ⟨a, n, ds, c⟩ s = ⟨a, n, ds, ⟨c.id, c.shift, c.size + 1, c.slope⟩⟩ by
          unfold segStep; rw [if_pos hdev]]
      rw [ih a n ds ⟨c.id, c.shift, c.size + 1, c.slope⟩ (i + 1) hneg]
      simp only [List.length_cons, SegState.mk.injEq, Domain.mk.injEq, true_and, and_true]
      all_goals omega

lemma segLoop_zero_cut_pos (rest : List ℚ) :
    ∀ (a : ℚ) (n : Nat) (ds : List Domain) (c : Domain) (i : Nat),
      0 < a → (∀ s ∈ rest, 0 < s) → c.size = 1 → (∀ d ∈ ds, d.size = 1) →
      (segLoop 0 ⟨a, n, ds, c⟩ i rest).domains.length = ds.length + rest.length ∧
        (segLoop 0 ⟨a, n, ds, c⟩ i rest).currDomain.size = 1 ∧
        ∀ d ∈ (segLoop 0 ⟨a, n, ds, c⟩ i rest).domains, d.size = 1 := by
  induction rest with
  | nil =>
      intro a n ds c i _ _ hcur hds
      simp only [segLoop]
      exact ⟨by simp, hcur, hds⟩
  | cons s rest ih =>
      intro a n ds c i hpos hrest hcur hds
      have hdev : ¬ fdev s a < 0 :=
        not_lt.mpr (div_nonneg (abs_nonneg _) (le_of_lt hpos))
      simp only [segLoop]
      rw [show segStep 0 i ⟨a, n, ds, c⟩ s = ⟨s, n + 1, ds ++ [c], ⟨n + 1, i, 1, s⟩⟩ by
          unfold segStep; rw [if_neg hdev]]
      have hs : 0 < s := hrest s (List.mem_cons_self s rest)
      have hrest2 : ∀ u ∈ rest, 0 < u := fun u hu => hrest u (List.mem_cons_of_mem s hu)
      have hds2 : ∀ d ∈ ds ++ [c], d.size = 1 := by
        intro d hd
        rcases List.mem_append.mp hd with h | h
        · exact hds d h
        · rw [List.mem_singleton.mp h]
          exact hcur
      obtain ⟨hl, hc, hall⟩ := ih s (n + 1) (ds ++ [c]) ⟨n + 1, i, 1, s⟩ (i + 1) hs hrest2 rfl hds2
      refine ⟨?_, hc, hall⟩
      rw [hl]
      simp only [List.length_append, List.length_cons, List.length_nil]
      omega


/-- Claim C4, counterexample: the domain count is NOT monotone in `FDEV_CUT`.
For slopes `[1, 3/2, 2, 4/5]` and thresholds `1/2 ≤ 3/5`, the smaller threshold
yields 2 domains but the larger one yields 3. -/
theorem fdev_cut_not_monotone_counterexample :
    (0:ℚ) ≤ 1 / 2 ∧ (1:ℚ) / 2 ≤ 3 / 5 ∧
      numDomains [1, 3 / 2, 2, 4 / 5] (1 / 2) = 2 ∧
      numDomains [1, 3 / 2, 2, 4 / 5] (3 / 5) = 3 ∧
      ¬ numDomains [1, 3 / 2, 2, 4 / 5] (3 / 5) ≤ numDomains [1, 3 / 2, 2, 4 / 5] (1 / 2) := by
  refine ⟨by norm_num, by norm_num, ?_, ?_, ?_⟩ <;>
    norm_num [numDomains, findDomains, segLoop, segStep, initState, fdev,
      abs_of_nonneg, abs_of_nonpos]

/-- Claim C4, amended: increasing `FDEV_CUT` while holding the slope array
fixed never shrinks the segmenter's first domain (the run of offsets merged
into the anchor `slopes[0]` only grows with the tolerance); the total number
of discovered domains is not monotone. -/
theorem fdev_cut_monotone_first_domain (slopes : List ℚ) (t1 t2 : ℚ)
    (_h0 : 0 ≤ t1) (h12 : t1 ≤ t2) :
    firstDomainSize slopes t1 ≤ firstDomainSize slopes t2 := by
  cases slopes with
  | nil => exact le_refl _
  | cons s0 rest =>
      rw [firstDomainSize_eq, firstDomainSize_eq]
      have hmono := takeWhile_length_mono
        (p := fun s => decide (fdev s s0 < t1)) (q := fun s => decide (fdev s s0 < t2))
        (fun a ha => by
          rw [decide_eq_true_eq] at ha ⊢
          exact lt_of_lt_of_le ha h12) rest
      omega

/-- Witness for `fdev_cut_monotone_first_domain` at slopes `[1, 3/2, 2, 4/5]`,
thresholds `1/2 ≤ 3/5`. -/
theorem fdev_cut_monotone_first_domain_witness :
    ((0:ℚ) ≤ 1 / 2 ∧ (1:ℚ) / 2 ≤ 3 / 5) ∧
      firstDomainSize [1, 3 / 2, 2, 4 / 5] (1 / 2) ≤
        firstDomainSize [1, 3 / 2, 2, 4 / 5] (3 / 5) :=
  ⟨⟨by norm_num, by norm_num⟩,
    fdev_cut_monotone_first_domain [1, 3 / 2, 2, 4 / 5] (1 / 2) (3 / 5)
      (by norm_num) (by norm_num)⟩

/-- Claim C6 (code bug): the source performs no input validation at all.
With the invalid configuration `FDEV_CUT = −1/2 < 0` (series `[0,1,2]`,
`W = 2`) the computation does not report any error before starting: it runs
the whole pipeline to completion and returns domain 0 with refined slope 1. -/
theorem no_validation_negative_cut_runs_to_completion :
    slidingWindowFind [0, 1, 2] [0, 1, 2] 2 (-(1 / 2)) = some (⟨0, 0, 1, 1⟩, 1) := by
  norm_num [slidingWindowFind, regressSlopes, findDomains, findLLD, segLoop, segStep,
    initState, fdev, pySlice, leastSquaresSlope, domLt, List.range_succ,
    abs_of_nonneg, abs_of_nonpos]

/-- Claim C9: a strictly negative first slope with a positive threshold makes
the fractional deviation non-positive at every later offset (the denominator is
the signed anchor), so every offset merges into the first domain: the segmenter
returns a single domain with shift 0 and size `N`, whatever the later slopes. -/
theorem negative_anchor_single_domain (s0 : ℚ) (rest : List ℚ) (cut : ℚ)
    (hneg : s0 < 0) (hc : 0 < cut) :
    findDomains (s0 :: rest) cut = [⟨0, 0, (s0 :: rest).length, s0⟩] := by
  unfold findDomains
  simp only [initState]
  rw [segLoop_neg_anchor_merges_all cut hc rest s0 0 [] ⟨0, 0, 1, s0⟩ 1 hneg]
  simp only [List.nil_append, List.length_cons, List.cons.injEq, Domain.mk.injEq,
    true_and, and_true]
  all_goals omega

/-- Witness for `negative_anchor_single_domain` at slopes `[-1, 5, -3]`,
`FDEV_CUT = 1`. -/
theorem negative_anchor_single_domain_witness :
    ((-1:ℚ) < 0 ∧ (0:ℚ) < 1) ∧ findDomains [-1, 5, -3] 1 = [⟨0, 0, 3, -1⟩] :=
  ⟨⟨by norm_num, by norm_num⟩,
    negative_anchor_single_domain (-1) [5, -3] 1 (by norm_num) (by norm_num)⟩

/-- Claim C10: with `FDEV_CUT = 0` and all slopes strictly positive, the
deviation is non-negative at every step, so the strict test `deviation < 0`
never merges: every offset (even one whose slope equals the anchor exactly)
starts a new domain, giving `N` domains of size 1. -/
theorem zero_cut_all_singletons (slopes : List ℚ) (hne : slopes ≠ [])
    (hpos : ∀ s ∈ slopes, 0 < s) :
    numDomains slopes 0 = slopes.length ∧ ∀ d ∈ findDomains slopes 0, d.size = 1 := by
  cases slopes with
  | nil => exact absurd rfl hne
  | cons s0 rest =>
      have h0 : (0:ℚ) < s0 := hpos s0 (List.mem_cons_self s0 rest)
      have hrest : ∀ u ∈ rest, 0 < u := fun u hu => hpos u (List.mem_cons_of_mem s0 hu)
      obtain ⟨hl, hc, hall⟩ :=
        segLoop_zero_cut_pos rest s0 0 [] ⟨0, 0, 1, s0⟩ 1 h0 hrest rfl (by simp)
      constructor
      · unfold numDomains findDomains
        simp only [initState, List.length_append, List.length_cons, List.length_nil]
        rw [hl]
        simp
      · unfold findDomains
        simp only [initState]
        intro d hd
        rcases List.mem_append.mp hd with h | h
        · exact hall d h
        · rw [List.mem_singleton.mp h]
          exact hc

/-- Witness for `zero_cut_all_singletons` at slopes `[1, 1, 2]`: 3 domains. -/
theorem zero_cut_all_singletons_witness :
    numDomains [1, 1, 2] 0 = 3 :=
  (zero_cut_all_singletons [1, 1, 2] (by simp) (by norm_num)).1

/-- Claim C7 (safety): the segmenter computes the relative deviation as
`|slopes[i] − anchor| / anchor` — the signed anchor slope itself is the
denominator, with no guard — and on a slope array whose anchor is exactly zero
(here `slopes = [0, 5]`) the segmentation step divides by zero. -/
theorem segmentation_divides_by_zero_anchor :
    (∀ s a : ℚ, fdev s a = |s - a| / a) ∧
      segmentationDividesByZero [0, 5] (1 / 10) = true := by
  constructor
  · intro s a
    rfl
  · rfl

lemma sumSizes_nil : sumSizes [] = 0 := rfl

lemma sumSizes_cons (d : Domain) (l : List Domain) :
    sumSizes (d :: l) = d.size + sumSizes l := rfl

lemma sumSizes_append (l1 l2 : List Domain) :
    sumSizes (l1 ++ l2) = sumSizes l1 + sumSizes l2 := by
  unfold sumSizes
  rw [List.map_append, List.sum_append]

lemma chainFrom_append (l1 l2 : List Domain) : ∀ a : Nat,
    chainFrom a (l1 ++ l2) ↔ chainFrom a l1 ∧ chainFrom (a + sumSizes l1) l2 := by
  induction l1 with
  | nil =>
      intro a
      simp [chainFrom, sumSizes_nil]
  | cons d l1 ih =>
      intro a
      constructor
      · rintro ⟨h1, h2, h3⟩
        rw [List.append_eq, ih] at h3
        refine ⟨⟨h1, h2, h3.1⟩, ?_⟩
        rw [sumSizes_cons, ← Nat.add_assoc]
        exact h3.2
      · rintro ⟨⟨h1, h2, h3⟩, h4⟩
        refine ⟨h1, h2, ?_⟩
        rw [List.append_eq, ih]
        refine ⟨h3, ?_⟩
        rw [sumSizes_cons, ← Nat.add_assoc] at h4
        exact h4

lemma chainFrom_sizes : ∀ (l : List Domain) (a : Nat), chainFrom a l → ∀ d ∈ l, 1 ≤ d.size := by
  intro l
  induction l with
  | nil =>
      intro a _ d hd
      simp at hd
  | cons e t ih =>
      intro a h d hd
      obtain ⟨h1, h2, h3⟩ := h
      rcases List.mem_cons.mp hd with rfl | hd2
      · exact h2
      · exact ih (a + e.size) h3 d hd2

lemma chainFrom_head? : ∀ (l : List Domain) (a : Nat), chainFrom a l → l ≠ [] →
    ∃ d, l.head? = some d ∧ d.shift = a := by
  intro l a h hne
  cases l with
  | nil => exact absurd rfl hne
  | cons e t => exact ⟨e, rfl, h.1⟩

lemma chainFrom_adjacent : ∀ (l : List Domain) (a : Nat), chainFrom a l →
    ∀ k (hk : k + 1 < l.length),
      (l.get ⟨k, Nat.lt_of_succ_lt hk⟩).shift + (l.get ⟨k, Nat.lt_of_succ_lt hk⟩).size =
        (l.get ⟨k + 1, hk⟩).shift := by
  intro l
  induction l with
  | nil =>
      intro a _ k hk
      simp at hk
  | cons e t ih =>
      intro a hch k hk
      cases k with
      | zero =>
          cases t with
          | nil => simp at hk
          | cons f t2 =>
              have h1 : e.shift = a := hch.1
              have h2 : f.shift = a + e.size := hch.2.2.1
              show e.shift + e.size = f.shift
              rw [h1, h2]
      | succ k =>
          exact ih (a + e.size) hch.2.2 k (Nat.lt_of_succ_lt_succ hk)

lemma segLoop_chain (cut : ℚ) :
    ∀ (rest : List ℚ) (a : ℚ) (n : Nat) (ds : List Domain) (c : Domain) (i : Nat),
      chainFrom 0 (ds ++ [c]) → sumSizes (ds ++ [c]) = i →
      chainFrom 0 ((segLoop cut ⟨a, n, ds, c⟩ i rest).domains ++
          [(segLoop cut ⟨a, n, ds, c⟩ i rest).currDomain]) ∧
        sumSizes ((segLoop cut ⟨a, n, ds, c⟩ i rest).domains ++
          [(segLoop cut ⟨a, n, ds, c⟩ i rest).currDomain]) = i + rest.length := by
  intro rest
  induction rest with
  | nil =>
      intro a n ds c i h1 h2
      simp only [segLoop]
      exact ⟨h1, by simp [h2]⟩
  | cons s rest ih =>
      intro a n ds c i h1 h2
      simp only [segLoop]
      by_cases hdev : fdev s a < cut
      · rw [show segStep cut i ⟨a, n, ds, c⟩ s = ⟨a, n, ds, ⟨c.id, c.shift, c.size + 1, c.slope⟩⟩ by
            unfold segStep; rw [if_pos hdev]]
        have h1a : chainFrom 0 (ds ++ [⟨c.id, c.shift, c.size + 1, c.slope⟩]) := by
          rw [chainFrom_append] at h1 ⊢
          obtain ⟨ha, hb1, hb2, _⟩ := h1
          exact ⟨ha, hb1, Nat.le_add_left 1 c.size, trivial⟩
        have h2a : sumSizes (ds ++ [⟨c.id, c.shift, c.size + 1, c.slope⟩]) = i + 1 := by
          rw [sumSizes_append] at h2 ⊢
          simp [sumSizes_cons, sumSizes_nil] at h2 ⊢
          omega
        obtain ⟨hA, hB⟩ := ih a n ds ⟨c.id, c.shift, c.size + 1, c.slope⟩ (i + 1) h1a h2a
        refine ⟨hA, ?_⟩
        rw [hB, List.length_cons]
        omega
      · rw [show segStep cut i ⟨a, n, ds, c⟩ s = ⟨s, n + 1, ds ++ [c], ⟨n + 1, i, 1, s⟩⟩ by
            unfold segStep; rw [if_neg hdev]]
        have h1a : chainFrom 0 ((ds ++ [c]) ++ [⟨n + 1, i, 1, s⟩]) := by
          rw [chainFrom_append]
          refine ⟨h1, ?_, le_refl 1, trivial⟩
          show i = 0 + sumSizes (ds ++ [c])
          rw [h2]
          omega
        have h2a : sumSizes ((ds ++ [c]) ++ [⟨n + 1, i, 1, s⟩]) = i + 1 := by
          rw [sumSizes_append, h2]
          simp [sumSizes_cons, sumSizes_nil]
        obtain ⟨hA, hB⟩ := ih s (n + 1) (ds ++ [c]) ⟨n + 1, i, 1, s⟩ (i + 1) h1a h2a
        refine ⟨hA, ?_⟩
        rw [hB, List.length_cons]
        omega

/-- Claim C1: for every slope array of length `N ≥ 1` and every `FDEV_CUT ≥ 0`,
the segmenter's domain list partitions `[0, N)`: it is nonempty, the first
domain has shift 0, every domain has size at least 1, each domain starts
exactly where its predecessor ends, and the sizes sum to `N`. -/
theorem segmenter_partition_invariant (slopes : List ℚ) (cut : ℚ)
    (hne : slopes ≠ []) (_hcut : 0 ≤ cut) :
    findDomains slopes cut ≠ [] ∧
      (∃ d, (findDomains slopes cut).head? = some d ∧ d.shift = 0) ∧
      (∀ d ∈ findDomains slopes cut, 1 ≤ d.size) ∧
      (∀ k (hk : k + 1 < (findDomains slopes cut).length),
        ((findDomains slopes cut).get ⟨k, Nat.lt_of_succ_lt hk⟩).shift +
          ((findDomains slopes cut).get ⟨k, Nat.lt_of_succ_lt hk⟩).size =
          ((findDomains slopes cut).get ⟨k + 1, hk⟩).shift) ∧
      sumSizes (findDomains slopes cut) = slopes.length := by
  cases slopes with
  | nil => exact absurd rfl hne
  | cons s0 rest =>
      have hinit1 : chainFrom 0 (([] : List Domain) ++ [⟨0, 0, 1, s0⟩]) :=
        ⟨rfl, le_refl 1, trivial⟩
      have hinit2 : sumSizes (([] : List Domain) ++ [⟨0, 0, 1, s0⟩]) = 1 := rfl
      obtain ⟨hchain, hsum⟩ := segLoop_chain cut rest s0 0 [] ⟨0, 0, 1, s0⟩ 1 hinit1 hinit2
      have hfd : findDomains (s0 :: rest) cut =
          (segLoop cut ⟨s0, 0, [], ⟨0, 0, 1, s0⟩⟩ 1 rest).domains ++
            [(segLoop cut ⟨s0, 0, [], ⟨0, 0, 1, s0⟩⟩ 1 rest).currDomain] := rfl
      rw [hfd]
      refine ⟨by simp, chainFrom_head? _ 0 hchain (by simp), chainFrom_sizes _ 0 hchain,
        chainFrom_adjacent _ 0 hchain, ?_⟩
      rw [hsum, List.length_cons]
      omega

/-- Witness for `segmenter_partition_invariant` at slopes `[1, 2]`, cut `1/4`:
the domain sizes sum to `N = 2`. -/
theorem segmenter_partition_invariant_witness :
    (([(1:ℚ), 2] ≠ []) ∧ ((0:ℚ) ≤ 1 / 4)) ∧ sumSizes (findDomains [1, 2] (1 / 4)) = 2 :=
  ⟨⟨by simp, by norm_num⟩,
    (segmenter_partition_invariant [1, 2] (1 / 4) (by simp) (by norm_num)).2.2.2.2⟩

lemma domLt_iff (a b : Domain) :
    domLt a b ↔ a.size < b.size ∨ (a.size = b.size ∧ a.slope < b.slope) := by
  unfold domLt
  by_cases h : a.size = b.size
  · rw [if_pos h]
    constructor
    · intro hs
      exact Or.inr ⟨h, hs⟩
    · rintro (hlt | ⟨h2, hs⟩)
      · omega
      · exact hs
  · rw [if_neg h]
    constructor
    · intro hs
      exact Or.inl hs
    · rintro (hlt | ⟨h2, hs⟩)
      · exact hlt
      · exact absurd h2 h

lemma domLt_irrefl (a : Domain) : ¬ domLt a a := by
  rw [domLt_iff]
  rintro (h | ⟨_, h⟩) <;> exact lt_irrefl _ h

lemma domLt_trans {a b c : Domain} (h1 : domLt a b) (h2 : domLt b c) : domLt a c := by
  rw [domLt_iff] at h1 h2 ⊢
  rcases h1 with h1 | ⟨h1a, h1b⟩ <;> rcases h2 with h2 | ⟨h2a, h2b⟩
  · left; omega
  · left; omega
  · left; omega
  · right
    exact ⟨by omega, lt_trans h1b h2b⟩

lemma domLt_asymm {a b : Domain} (h : domLt a b) : ¬ domLt b a :=
  fun h2 => domLt_irrefl a (domLt_trans h h2)

lemma domLt_of_not_domLt_of_domLt {a x r : Domain} (h1 : ¬ domLt a x) (h2 : domLt a r) :
    domLt x r := by
  rw [domLt_iff] at h1 h2 ⊢
  push_neg at h1
  obtain ⟨h1a, h1b⟩ := h1
  rcases h2 with h2 | ⟨h2a, h2b⟩
  · left; omega
  · rcases Nat.lt_or_ge x.size a.size with hx | hx
    · left; omega
    · have hxa : x.size = a.size := by omega
      right
      refine ⟨by omega, ?_⟩
      exact lt_of_le_of_lt (h1b hxa.symm) h2b

lemma selectFold_spec (l : List Domain) : ∀ a : Domain,
    (List.foldl (fun lld d => if domLt lld d then d else lld) a l = a ∧
        ∀ x ∈ l, ¬ domLt a x) ∨
      ∃ i, ∃ hi : i < l.length,
        List.foldl (fun lld d => if domLt lld d then d else lld) a l = l.get ⟨i, hi⟩ ∧
          domLt a (l.get ⟨i, hi⟩) ∧
          (∀ j (hj : j < l.length), ¬ domLt (l.get ⟨i, hi⟩) (l.get ⟨j, hj⟩)) ∧
          (∀ j (hj : j < l.length), j < i → domLt (l.get ⟨j, hj⟩) (l.get ⟨i, hi⟩)) := by
  induction l with
  | nil =>
      intro a
      left
      exact ⟨rfl, by simp⟩
  | cons x t ih =>
      intro a
      simp only [List.foldl_cons]
      by_cases hax : domLt a x
      · rw [if_pos hax]
        rcases ih x with ⟨heq, hall⟩ | ⟨i, hi, heq, hxi, hmax, hearly⟩
        · right
          refine ⟨0, by simp, heq, hax, ?_, ?_⟩
          · intro j hj
            cases j with
            | zero => exact domLt_irrefl x
            | succ j => exact hall _ (List.get_mem t j (by simpa using hj))
          · intro j hj hj0
            omega
        · right
          refine ⟨i + 1, by simpa using hi, heq, domLt_trans hax hxi, ?_, ?_⟩
          · intro j hj
            cases j with
            | zero => exact domLt_asymm hxi
            | succ j => exact hmax j (by simpa using hj)
          · intro j hj hji
            cases j with
            | zero => exact hxi
            | succ j => exact hearly j (by simpa using hj) (by omega)
      · rw [if_neg hax]
        rcases ih a with ⟨heq, hall⟩ | ⟨i, hi, heq, hai, hmax, hearly⟩
        · left
          refine ⟨heq, ?_⟩
          intro z hz
          rcases List.mem_cons.mp hz with rfl | hz2
          · exact hax
          · exact hall z hz2
        · right
          refine ⟨i + 1, by simpa using hi, heq, hai, ?_, ?_⟩
          · intro j hj
            cases j with
            | zero => exact fun h => hax (domLt_trans hai h)
            | succ j => exact hmax j (by simpa using hj)
          · intro j hj hji
            cases j with
            | zero => exact domLt_of_not_domLt_of_domLt hax hai
            | succ j => exact hearly j (by simpa using hj) (by omega)

/-- Claim C2: on a non-empty domain list the selection loop returns an element
of the list that is maximal under the code's order (larger size wins; equal
sizes are decided by the larger signed slope), and it is the earliest such
element: every strictly earlier element of the list is strictly below it. -/
theorem selector_max_earliest (ds : List Domain) (hne : ds ≠ []) :
    ∃ r i, ∃ hi : i < ds.length,
      findLLD ds = some r ∧ r = ds.get ⟨i, hi⟩ ∧
        (∀ j (hj : j < ds.length), ¬ domLt r (ds.get ⟨j, hj⟩)) ∧
        (∀ j (hj : j < ds.length), j < i → domLt (ds.get ⟨j, hj⟩) r) := by
  cases ds with
  | nil => exact absurd rfl hne
  | cons d0 t =>
      have hfold : findLLD (d0 :: t) =
          some (List.foldl (fun lld d => if domLt lld d then d else lld) d0 t) := by
        simp only [findLLD, List.foldl_cons, ite_self]
      rcases selectFold_spec t d0 with ⟨heq, hall⟩ | ⟨i, hi, heq, h0i, hmax, hearly⟩
      · refine ⟨d0, 0, by simp, ?_, rfl, ?_, ?_⟩
        · rw [hfold, heq]
        · intro j hj
          cases j with
          | zero => exact domLt_irrefl d0
          | succ j => exact hall _ (List.get_mem t j (by simpa using hj))
        · intro j hj hj0
          omega
      · refine ⟨t.get ⟨i, hi⟩, i + 1, by simpa using hi, ?_, rfl, ?_, ?_⟩
        · rw [hfold, heq]
        · intro j hj
          cases j with
          | zero => exact domLt_asymm h0i
          | succ j => exact hmax j (by simpa using hj)
        · intro j hj hji
          cases j with
          | zero => exact h0i
          | succ j => exact hearly j (by simpa using hj) (by omega)

/-- Witness for `selector_max_earliest` on the two-domain list
`[{id 0, shift 0, size 2, slope 1}, {id 1, shift 2, size 2, slope 1}]`
(an exact size-and-slope tie). -/
theorem selector_max_earliest_witness :
    (([⟨0, 0, 2, 1⟩, ⟨1, 2, 2, 1⟩] : List Domain) ≠ []) ∧
      ∃ r i, ∃ hi : i < ([⟨0, 0, 2, 1⟩, ⟨1, 2, 2, 1⟩] : List Domain).length,
        findLLD [⟨0, 0, 2, 1⟩, ⟨1, 2, 2, 1⟩] = some r ∧
          r = ([⟨0, 0, 2, 1⟩, ⟨1, 2, 2, 1⟩] : List Domain).get ⟨i, hi⟩ ∧
          (∀ j (hj : j < ([⟨0, 0, 2, 1⟩, ⟨1, 2, 2, 1⟩] : List Domain).length),
            ¬ domLt r (([⟨0, 0, 2, 1⟩, ⟨1, 2, 2, 1⟩] : List Domain).get ⟨j, hj⟩)) ∧
          (∀ j (hj : j < ([⟨0, 0, 2, 1⟩, ⟨1, 2, 2, 1⟩] : List Domain).length),
            j < i → domLt (([⟨0, 0, 2, 1⟩, ⟨1, 2, 2, 1⟩] : List Domain).get ⟨j, hj⟩) r) :=
  ⟨by simp, selector_max_earliest [⟨0, 0, 2, 1⟩, ⟨1, 2, 2, 1⟩] (by simp)⟩

lemma pySlice_eq_indexRange (l : List ℚ) (a b : Nat) :
    pySlice l a b = indexRange l a (min b l.length) := by
  unfold pySlice indexRange
  apply List.ext_get
  · simp [List.length_drop, List.length_take]
  · intro n h1 h2
    have hb : a + n < l.length := by
      simp only [List.length_drop, List.length_take] at h1
      omega
    simp only [List.get_eq_getElem, List.getElem_drop, List.getElem_take, List.getElem_map,
      List.getElem_range]
    rw [List.getD_eq_getElem l 0 hb]

/-- Claim C3: whenever the pipeline returns a selected domain `d` and a refined
slope `m`, that slope is the least-squares fit over exactly the index range
`[d.shift, min(n, d.shift + d.size + W))` of both series — the domain's offset
span extended by `W` and clipped to the series bounds. -/
theorem refined_slope_extended_range (x y : List ℚ) (W : Nat) (cut : ℚ) (d : Domain) (m : ℚ)
    (h : slidingWindowFind x y W cut = some (d, m)) :
    m = leastSquaresSlope
        (indexRange x d.shift (min x.length (d.shift + d.size + W)))
        (indexRange y d.shift (min x.length (d.shift + d.size + W))) := by
  simp only [slidingWindowFind] at h
  by_cases hg : W = 0 ∨ x.length < W ∨ y.length ≠ x.length
  · rw [if_pos hg] at h
    exact absurd h (by simp)
  · rw [if_neg hg] at h
    push_neg at hg
    obtain ⟨hW0, hxW, hyx⟩ := hg
    cases hLLD : findLLD (findDomains (regressSlopes x y W) cut) with
    | none =>
        rw [hLLD] at h
        exact absurd h (by simp)
    | some d2 =>
        rw [hLLD] at h
        simp only [Option.some.injEq, Prod.mk.injEq] at h
        obtain ⟨hd, hm⟩ := h
        subst hd
        rw [← hm, pySlice_eq_indexRange, pySlice_eq_indexRange, hyx,
          Nat.min_comm (d2.shift + d2.size + W) x.length]

/-- Witness for `refined_slope_extended_range`: series `[0,1,2,3]`, `W = 2`,
cut `1/2`; the selected domain spans all three offsets and the extended range
`[0, 0+3+2)` is clipped to the series length 4. -/
theorem refined_slope_extended_range_witness :
    slidingWindowFind [0, 1, 2, 3] [0, 1, 2, 3] 2 (1 / 2) = some (⟨0, 0, 3, 1⟩, 1) ∧
      (1 : ℚ) = leastSquaresSlope
        (indexRange [0, 1, 2, 3] 0 (min 4 5)) (indexRange [0, 1, 2, 3] 0 (min 4 5)) := by
  have hrun : slidingWindowFind [0, 1, 2, 3] [0, 1, 2, 3] 2 (1 / 2) = some (⟨0, 0, 3, 1⟩, 1) := by
    norm_num [slidingWindowFind, regressSlopes, findDomains, findLLD, segLoop, segStep,
      initState, fdev, pySlice, leastSquaresSlope, domLt, List.range_succ,
      abs_of_nonneg, abs_of_nonpos]
  exact ⟨hrun,
    refined_slope_extended_range [0, 1, 2, 3] [0, 1, 2, 3] 2 (1 / 2) ⟨0, 0, 3, 1⟩ 1 hrun⟩

/-- Claim C5: for equal-length series and a window `2 ≤ W ≤ n`, the regressor
produces exactly `n − W + 1` slopes, and slope `i` is the least-squares
degree-1 slope fitted over the points at indices `[i, i+W)` of both series. -/
theorem regressor_window_count_and_entries (x y : List ℚ) (n W : Nat)
    (hx : x.length = n) (hy : y.length = n) (_hW2 : 2 ≤ W) (hWn : W ≤ n) :
    (regressSlopes x y W).length = n - W + 1 ∧
      ∀ i (hi : i < (regressSlopes x y W).length),
        (regressSlopes x y W).get ⟨i, hi⟩ =
          leastSquaresSlope ((List.range W).map fun k => x.getD (i + k) 0)
                            ((List.range W).map fun k => y.getD (i + k) 0) := by
  have hlen : (regressSlopes x y W).length = n - W + 1 := by
    simp [regressSlopes, hx]
  refine ⟨hlen, ?_⟩
  intro i hi
  have hiN : i < n - W + 1 := by
    rw [hlen] at hi
    exact hi
  have hiW : i + W ≤ n := by omega
  unfold regressSlopes
  simp only [List.get_eq_getElem, List.getElem_map, List.getElem_range]
  rw [pySlice_eq_indexRange, pySlice_eq_indexRange, hx, hy, Nat.min_eq_left hiW]
  unfold indexRange
  rw [Nat.add_sub_cancel_left]

/-- Witness for `regressor_window_count_and_entries`: series `[0,1,2,3]`,
`W = 2` gives 3 slopes. -/
theorem regressor_window_count_and_entries_witness :
    ((2:Nat) ≤ 2 ∧ (2:Nat) ≤ 4) ∧ (regressSlopes [0, 1, 2, 3] [0, 1, 2, 3] 2).length = 4 - 2 + 1 :=
  ⟨⟨by norm_num, by norm_num⟩,
    (regressor_window_count_and_entries [0, 1, 2, 3] [0, 1, 2, 3] 4 2 rfl rfl
      (by norm_num) (by norm_num)).1⟩

/-- Claim C8: with `W` equal to the series length `n ≥ 2`, the regressor yields
exactly one slope (the whole-series fit), the segmenter yields the single
trivial domain `{id 0, shift 0, size 1}`, and the refined slope equals the
slope of one regression over the entire series. -/
theorem window_equals_length_single_domain (x y : List ℚ) (W : Nat) (cut : ℚ)
    (hx : x.length = W) (hy : y.length = W) (hW : 2 ≤ W) :
    regressSlopes x y W = [leastSquaresSlope x y] ∧
      findDomains (regressSlopes x y W) cut = [⟨0, 0, 1, leastSquaresSlope x y⟩] ∧
      slidingWindowFind x y W cut =
        some (⟨0, 0, 1, leastSquaresSlope x y⟩, leastSquaresSlope x y) := by
  have hxW : x.take W = x := List.take_of_length_le (le_of_eq hx)
  have hyW : y.take W = y := List.take_of_length_le (le_of_eq hy)
  have h1 : regressSlopes x y W = [leastSquaresSlope x y] := by
    unfold regressSlopes
    rw [hx, Nat.sub_self]
    simp only [List.range_succ, List.range_zero, List.nil_append, List.map_cons, List.map_nil]
    unfold pySlice
    simp only [Nat.zero_add, List.drop_zero]
    rw [hxW, hyW]
  have h2 : findDomains [leastSquaresSlope x y] cut = [⟨0, 0, 1, leastSquaresSlope x y⟩] := rfl
  have hguard : ¬ (W = 0 ∨ x.length < W ∨ y.length ≠ x.length) := by
    push_neg
    refine ⟨by omega, by omega, ?_⟩
    rw [hy, hx]
  have h3 : slidingWindowFind x y W cut =
      some (⟨0, 0, 1, leastSquaresSlope x y⟩, leastSquaresSlope x y) := by
    simp only [slidingWindowFind]
    rw [if_neg hguard, h1, h2]
    simp only [findLLD, List.foldl_cons, List.foldl_nil, ite_self]
    have hx5 : x.take (0 + 1 + W) = x := List.take_of_length_le (by omega)
    have hy5 : y.take (0 + 1 + W) = y := List.take_of_length_le (by omega)
    simp [pySlice, hx5, hy5]
  exact ⟨h1, by rw [h1]; exact h2, h3⟩

/-- Witness for `window_equals_length_single_domain`: `x = y = [0, 1]`,
`W = n = 2`. -/
theorem window_equals_length_single_domain_witness :
    slidingWindowFind [0, 1] [0, 1] 2 (1 / 10) =
      some (⟨0, 0, 1, leastSquaresSlope [0, 1] [0, 1]⟩, leastSquaresSlope [0, 1] [0, 1]) :=
  (window_equals_length_single_domain [0, 1] [0, 1] 2 (1 / 10) rfl rfl (by norm_num)).2.2
